import Mathlib

/-!
Verification of the `nb` notebook engine: a shallow embedding of the
markdown-with-frontmatter document parser/serializer (`src/document.rs`) and
the daily-log operations (`src/notebook.rs`), together with theorems settling
the specification claims about them.

Text is modelled as `List Char` (Rust `&str` at char granularity; all
delimiters involved are ASCII, so byte positions used by the Rust code
coincide with char positions at every slice boundary it computes).  The YAML
layer (`serde_yaml`, an external crate) is abstracted as a codec parameter;
a small concrete codec stands in for it at concrete inputs.
-/

set_option maxRecDepth 4096

/-- Chars of a string literal. -/
def cs (s : String) : List Char := s.data

/-- Line feed. -/
def lf : Char := '\n'

/-- Carriage return. -/
def cr : Char := '\r'

/-- The Unicode White_Space set, as used by Rust `char::is_whitespace`
(`trim_start`, `trim`). -/
def isWs (c : Char) : Bool :=
  let n := c.toNat
  (9 ≤ n && n ≤ 13) || n == 32 || n == 0x85 || n == 0xa0 || n == 0x1680 ||
  (0x2000 ≤ n && n ≤ 0x200a) || n == 0x2028 || n == 0x2029 || n == 0x202f ||
  n == 0x205f || n == 0x3000

/-- Rust `str::trim_start`. -/
def trimStart (l : List Char) : List Char := l.dropWhile isWs

/-- Rust `str::trim`. -/
def rustTrim (l : List Char) : List Char :=
  ((l.dropWhile isWs).reverse.dropWhile isWs).reverse

/-- Rust `str::starts_with(pat)`: `begins pat l` holds when `l` starts with
`pat`. -/
def begins : List Char → List Char → Bool
  | [], _ => true
  | _ :: _, [] => false
  | p :: ps, c :: rest => p == c && begins ps rest

/-- Rust `str::find(pat)`: index of the first occurrence of `pat` in `l`. -/
def firstOcc (pat : List Char) : List Char → Option Nat
  | [] => if begins pat [] then some 0 else none
  | c :: rest =>
    if begins pat (c :: rest) then some 0
    else (firstOcc pat rest).map (· + 1)

theorem begins_refl (p : List Char) : begins p p = true := by
  induction p with
  | nil => rfl
  | cons c rest ih => simp [begins, ih]

theorem begins_append (p z : List Char) : begins p (p ++ z) = true := by
  induction p with
  | nil => rfl
  | cons c rest ih => simp [begins, ih]

theorem begins_length {p l : List Char} (h : begins p l = true) :
    p.length ≤ l.length := by
  induction p generalizing l with
  | nil => simp
  | cons c rest ih =>
    cases l with
    | nil => simp [begins] at h
    | cons d t =>
      simp only [begins, Bool.and_eq_true] at h
      simpa using ih h.2

theorem begins_iff_eq_append {p l : List Char} :
    begins p l = true ↔ ∃ z, l = p ++ z := by
  constructor
  · intro h
    induction p generalizing l with
    | nil => exact ⟨l, rfl⟩
    | cons c rest ih =>
      cases l with
      | nil => simp [begins] at h
      | cons d t =>
        simp only [begins, Bool.and_eq_true, beq_iff_eq] at h
        obtain ⟨z, hz⟩ := ih h.2
        exact ⟨z, by simp [h.1, hz]⟩
  · rintro ⟨z, rfl⟩
    exact begins_append p z

theorem begins_append_of_le {p l : List Char} (z : List Char)
    (h : p.length ≤ l.length) : begins p (l ++ z) = begins p l := by
  induction p generalizing l with
  | nil => rfl
  | cons c rest ih =>
    cases l with
    | nil => simp at h
    | cons d t =>
      simp only [List.cons_append, begins]
      rw [show t.append z = t ++ z from rfl, ih (by simpa using h)]

theorem firstOcc_begins {pat l : List Char} {i : Nat}
    (h : firstOcc pat l = some i) : begins pat (l.drop i) = true := by
  induction l generalizing i with
  | nil =>
    simp only [firstOcc] at h
    split at h
    · rename_i hb
      cases h
      simpa using hb
    · cases h
  | cons c rest ih =>
    simp only [firstOcc] at h
    split at h
    · rename_i hb
      cases h
      simpa using hb
    · rcases Option.map_eq_some'.mp h with ⟨j, hj, rfl⟩
      simpa using ih hj

theorem firstOcc_min {pat l : List Char} {i : Nat}
    (h : firstOcc pat l = some i) :
    ∀ j, j < i → begins pat (l.drop j) = false := by
  induction l generalizing i with
  | nil =>
    simp only [firstOcc] at h
    split at h
    · cases h; omega
    · cases h
  | cons c rest ih =>
    simp only [firstOcc] at h
    split at h
    · cases h; omega
    · rename_i hb
      rcases Option.map_eq_some'.mp h with ⟨k, hk, rfl⟩
      intro j hj
      cases j with
      | zero => simpa using Bool.not_eq_true _ ▸ (by simpa using hb)
      | succ j' => simpa using ih hk j' (by omega)

theorem firstOcc_isSome_of_begins {pat l : List Char} {i : Nat}
    (h : begins pat (l.drop i) = true) : (firstOcc pat l).isSome := by
  induction l generalizing i with
  | nil =>
    simp only [List.drop_nil] at h
    simp [firstOcc, h]
  | cons c rest ih =>
    cases i with
    | zero =>
      simp only [List.drop_zero] at h
      simp [firstOcc, h]
    | succ i' =>
      simp only [firstOcc]
      split
      · simp
      · simpa using ih (i := i') (by simpa using h)

theorem firstOcc_eq_none {pat l : List Char}
    (h : firstOcc pat l = none) : ∀ i, begins pat (l.drop i) = false := by
  intro i
  cases hb : begins pat (l.drop i) with
  | false => rfl
  | true =>
    have hs := firstOcc_isSome_of_begins hb
    rw [h] at hs
    simp at hs

theorem firstOcc_le_length {pat l : List Char} {i : Nat}
    (h : firstOcc pat l = some i) : i ≤ l.length := by
  induction l generalizing i with
  | nil =>
    simp only [firstOcc] at h
    split at h
    · cases h; simp
    · cases h
  | cons c rest ih =>
    simp only [firstOcc] at h
    split at h
    · cases h; simp
    · rcases Option.map_eq_some'.mp h with ⟨k, hk, rfl⟩
      have := ih hk
      simp only [List.length_cons]
      omega

theorem firstOcc_bound {pat l : List Char} {i : Nat}
    (h : firstOcc pat l = some i) : i + pat.length ≤ l.length := by
  have hb := firstOcc_begins h
  have h1 := begins_length hb
  have hd : (l.drop i).length = l.length - i := by simp
  rw [hd] at h1
  have hi := firstOcc_le_length h
  omega

theorem firstOcc_decomp {pat l : List Char} {i : Nat}
    (h : firstOcc pat l = some i) :
    l = l.take i ++ pat ++ l.drop (i + pat.length) := by
  have hb := firstOcc_begins h
  obtain ⟨z, hz⟩ := begins_iff_eq_append.mp hb
  have h2 : l.drop (i + pat.length) = z := by
    rw [← List.drop_drop, hz, List.drop_left]
  rw [h2, List.append_assoc, ← hz, List.take_append_drop]

/-! ## Document model (`src/document.rs`)

`Document` carries frontmatter of an abstract type `α` standing for
`HashMap<String, serde_yaml::Value>` up to value equality, plus the content
string.  The external `serde_yaml` calls are abstracted as a `YamlCodec`:
`parseFm` for `serde_yaml::from_str` (`none` = parse failure), `serFm` for
`serde_yaml::to_string`, `isEmptyFm` for `HashMap::is_empty` and `empty` for
`HashMap::new()`.  `isEmptyFm_empty` records that an empty map is
value-equal to `HashMap::new()`. -/

structure Document (α : Type) where
  frontmatter : α
  content : List Char
deriving DecidableEq

inductive ParseErr where
  | malformedFrontmatter
deriving DecidableEq

structure YamlCodec (α : Type) where
  empty : α
  isEmptyFm : α → Bool
  parseFm : List Char → Option α
  serFm : α → List Char
  isEmptyFm_empty : ∀ a, isEmptyFm a = true → a = empty

/-- The opening delimiter with a bare line feed. -/
def openLF : List Char := cs "---\n"

/-- The opening delimiter with a carriage-return line feed. -/
def openCRLF : List Char := cs "---\r\n"

/-- Search pattern 1 of `Document::parse`. -/
def pat1 : List Char := cs "\n---\n"

/-- Search pattern 2 of `Document::parse`. -/
def pat2 : List Char := cs "\r\n---\r\n"

/-- Search pattern 3 of `Document::parse`. -/
def pat3 : List Char := cs "\n---\r\n"

/-- Search pattern 4 of `Document::parse`. -/
def pat4 : List Char := cs "\r\n---\n"

/-- The `or_else` chain locating the closing delimiter
(`src/document.rs:67-71`). -/
def findEndDelim (s : List Char) : Option Nat :=
  match firstOcc pat1 s with
  | some p => some p
  | none =>
    match firstOcc pat2 s with
    | some p => some p
    | none =>
      match firstOcc pat3 s with
      | some p => some p
      | none => firstOcc pat4 s

/-- Document with content but no frontmatter (`Document::with_content`). -/
def Document.withContent (C : YamlCodec α) (text : List Char) : Document α :=
  ⟨C.empty, text⟩

/-- The shared frontmatter-string step of `Document::parse`
(`src/document.rs:91-102`): an all-whitespace block yields the empty map,
otherwise the YAML layer decides. -/
def fmStep (C : YamlCodec α) (fmStr content : List Char) :
    Except ParseErr (Document α) :=
  if (rustTrim fmStr).isEmpty then .ok ⟨C.empty, content⟩
  else
    match C.parseFm fmStr with
    | some m => .ok ⟨m, content⟩
    | none => .error .malformedFrontmatter

/-- `Document::parse` (`src/document.rs:45-103`). -/
def Document.parse (C : YamlCodec α) (text : List Char) :
    Except ParseErr (Document α) :=
  if !(begins openLF text || begins openCRLF text) then
    .ok (Document.withContent C text)
  else
    let after := if begins openCRLF text then text.drop 5 else text.drop 4
    if begins openLF after || begins openCRLF after then
      let skip := if begins openCRLF after then 5 else 4
      fmStep C [] (trimStart (after.drop skip))
    else
      match findEndDelim after with
      | some pos =>
        let content :=
          if pos + 5 < after.length then after.drop (pos + 5) else []
        fmStep C (after.take pos) (trimStart content)
      | none => .ok (Document.withContent C text)

/-- `Document::to_string` (`src/document.rs:113-122`).  `serFm` is total, so
the `unwrap_or_else` fallback of the Rust code is unreachable here. -/
def Document.toStr (C : YamlCodec α) (d : Document α) : List Char :=
  if C.isEmptyFm d.frontmatter then d.content
  else openLF ++ C.serFm d.frontmatter ++ cs "---\n\n" ++ d.content

/-! ### Checked variant of the parser (for the totality claim)

`sliceFrom`/`sliceTo` model the Rust slice operations `&s[i..]` and
`&s[..i]`: `none` means the index is out of bounds, i.e. a panic. -/

def sliceFrom (l : List Char) (i : Nat) : Option (List Char) :=
  if i ≤ l.length then some (l.drop i) else none

def sliceTo (l : List Char) (i : Nat) : Option (List Char) :=
  if i ≤ l.length then some (l.take i) else none

/-- `Document::parse` with every slice checked; `none` models a panic. -/
def parseChecked (C : YamlCodec α) (text : List Char) :
    Option (Except ParseErr (Document α)) :=
  if !(begins openLF text || begins openCRLF text) then
    some (.ok (Document.withContent C text))
  else
    (if begins openCRLF text then sliceFrom text 5 else sliceFrom text 4).bind
      fun after =>
    if begins openLF after || begins openCRLF after then
      (sliceFrom after (if begins openCRLF after then 5 else 4)).bind
        fun rest => some (fmStep C [] (trimStart rest))
    else
      match findEndDelim after with
      | some pos =>
        (sliceTo after pos).bind fun fmStr =>
        (if pos + 5 < after.length then sliceFrom after (pos + 5)
         else some []).bind fun rest =>
        some (fmStep C fmStr (trimStart rest))
      | none => some (.ok (Document.withContent C text))

/-! ## Notebook operations (`src/notebook.rs`) -/

/-- Strip one trailing carriage return, as Rust `str::lines` does for each
newline-terminated line. -/
def stripCr (l : List Char) : List Char :=
  if l.getLast? = some cr then l.dropLast else l

/-- Rust `str::lines`: split on `\n`, drop a final empty segment, and strip
one trailing `\r` from every newline-terminated line (a final line without a
terminator keeps a trailing `\r`). -/
def rustLines (s : List Char) : List (List Char) :=
  let segs := s.splitOn lf
  let front := segs.dropLast.map stripCr
  match segs.getLast? with
  | some [] => front
  | some lst => front ++ [lst]
  | none => []

/-- The unchecked-marker test of `find_unchecked_todos`
(`src/notebook.rs:123`). -/
def isUnchecked (line : List Char) : Bool :=
  begins (cs "- [ ]") (trimStart line)

/-- `find_unchecked_todos` (`src/notebook.rs:120-126`). -/
def find_unchecked_todos (content : List Char) : List (List Char) :=
  (rustLines content).filter isUnchecked

/-- The scan for the next section line in `rollover_todos`
(`src/notebook.rs:181-192`), fuel-indexed so that it is structurally
recursive; `scanIdx` supplies enough fuel for the whole list. -/
def scanIdxAux : Nat → List (List Char) → Nat → Nat
  | 0, _, pos => pos
  | fuel + 1, lines, pos =>
    match lines[pos]? with
    | none => pos
    | some line =>
      if begins (cs "##") (rustTrim line) then pos
      else scanIdxAux fuel lines (pos + 1)

def scanIdx (lines : List (List Char)) (pos : Nat) : Nat :=
  scanIdxAux lines.length lines pos

/-- Rust `Vec::insert` at an index `≤` the length (the only way the source
calls it): splice the element in. -/
def insertAt (l : List α) (n : Nat) (a : α) : List α :=
  l.take n ++ a :: l.drop n

/-- The insertion loop for the rolled-over items
(`src/notebook.rs:208-210`). -/
def insertTodos (l : List (List Char)) (pos : Nat) :
    List (List Char) → List (List Char)
  | [] => l
  | t :: ts => insertTodos (insertAt l pos t) (pos + 1) ts

/-- Lines joined with `\n` (Rust `Vec::join`). -/
def joinNl (ls : List (List Char)) : List Char :=
  (List.intersperse (cs "\n") ls).flatten

/-- The generated rollover header line (`src/notebook.rs:204`), with the
formatted source-date label as a parameter. -/
def rolloverHeader (label : List Char) : List Char :=
  cs "### Rolled over from " ++ label

/-- The pure merge step of `rollover_todos` (`src/notebook.rs:175-213`):
find `## Personal`, scan to the next section or the end, splice in the
blank line, header, blank line and items, and rejoin with a trailing
newline. -/
def rolloverMerge (content : List Char) (todos : List (List Char))
    (label : List Char) : List Char :=
  let lines := rustLines content
  let insertPos :=
    match lines.findIdx? (fun l => rustTrim l == cs "## Personal") with
    | some idx => scanIdx lines (idx + 1)
    | none => lines.length
  let l1 := insertAt lines insertPos []
  let l2 := insertAt l1 (insertPos + 1) (rolloverHeader label)
  let l3 := insertAt l2 (insertPos + 2) []
  joinNl (insertTodos l3 (insertPos + 3) todos) ++ cs "\n"

/-- Rust `str::replace` (left-to-right, non-overlapping), fuel-indexed for
structural recursion; fuel `l.length` always suffices. -/
def replaceAllAux (pat repl : List Char) : Nat → List Char → List Char
  | 0, l => l
  | fuel + 1, l =>
    match l with
    | [] => []
    | c :: rest =>
      if !pat.isEmpty && begins pat l then
        repl ++ replaceAllAux pat repl fuel (l.drop pat.length)
      else c :: replaceAllAux pat repl fuel rest

def replaceAll (pat repl l : List Char) : List Char :=
  replaceAllAux pat repl l.length l

/-! ### File-system model and `rollover_todos`

The file system is a partial map from (already resolved) paths to file
contents; `fsWrite` is a whole-file write.  Paths, and the three
chrono-formatted date strings the source computes (`%a %-d %B %Y` long and
short forms for the template, and the label of today for the rollover header),
enter as parameters. -/

def FS : Type := String → Option (List Char)

def fsWrite (fs : FS) (p : String) (v : List Char) : FS :=
  fun q => if q = p then some v else fs q

inductive RollErr where
  | todayMissing
  | badDoc
  | templateMissing
deriving DecidableEq

/-- `create_log_from_template` (`src/notebook.rs:38-69`): read and parse the
template, substitute the long then the short date placeholder, and write the
rendered document to the target path. -/
def createFromTemplate (C : YamlCodec α) (fs : FS)
    (templatePath targetPath : String) (dateLong dateShort : List Char) :
    Except RollErr FS :=
  match fs templatePath with
  | none => .error .templateMissing
  | some ttext =>
    match Document.parse C ttext with
    | .error _ => .error .badDoc
    | .ok tdoc =>
      let c1 := replaceAll (cs "\x7b\x7bdate:ddd D MMMM YYYY\x7d\x7d")
        dateLong tdoc.content
      let c2 := replaceAll (cs "\x7b\x7bdate:D MMMM YYYY\x7d\x7d")
        dateShort c1
      .ok (fsWrite fs targetPath
        (Document.toStr C ⟨tdoc.frontmatter, c2⟩))

/-- The read-merge-write tail of `rollover_todos`
(`src/notebook.rs:171-214`): read the document for tomorrow from `fs1`, splice the
items into its content, and write it back. -/
def rolloverWrite (C : YamlCodec α) (fs1 : FS) (tomorrowPath : String)
    (todos : List (List Char)) (todayLabel : List Char) :
    Except RollErr Unit × FS :=
  match fs1 tomorrowPath with
  | none => (.error .badDoc, fs1)
  | some mtext =>
    match Document.parse C mtext with
    | .error _ => (.error .badDoc, fs1)
    | .ok tomorrowDoc =>
      (.ok (), fsWrite fs1 tomorrowPath (Document.toStr C
        ⟨tomorrowDoc.frontmatter,
          rolloverMerge tomorrowDoc.content todos todayLabel⟩))

/-- `rollover_todos` (`src/notebook.rs:128-223`) as a transition on the
file-system state, returning the outcome together with the state. -/
def rollover (C : YamlCodec α) (fs : FS)
    (todayPath tomorrowPath templatePath : String)
    (dateLong dateShort todayLabel : List Char) :
    Except RollErr Unit × FS :=
  match fs todayPath with
  | none => (.error .todayMissing, fs)
  | some ttext =>
    match Document.parse C ttext with
    | .error _ => (.error .badDoc, fs)
    | .ok todayDoc =>
      if (find_unchecked_todos todayDoc.content).isEmpty then (.ok (), fs)
      else
        match
          (if (fs tomorrowPath).isSome then .ok fs
           else createFromTemplate C fs templatePath tomorrowPath
             dateLong dateShort : Except RollErr FS) with
        | .error e => (.error e, fs)
        | .ok fs1 =>
          rolloverWrite C fs1 tomorrowPath
            (find_unchecked_todos todayDoc.content) todayLabel

/-! ## Date handling (`get_date_offset`, `list_logs`)

`NaiveDate::parse_from_str(s, "%Y-%m-%d")` is modelled from the parser of chrono 0.4: each numeric field skips leading whitespace, then reads one to
`width` ASCII digits (width 4 for `%Y`, 2 for `%m`/`%d`), except that a year
with an explicit sign reads arbitrarily many digits; literal `-` separators
match exactly; trailing input is an error; the resulting numbers must form a
real proleptic-Gregorian date within the chrono year range
`[-262144, 262143]`. -/

def isDig (c : Char) : Bool := 48 ≤ c.toNat && c.toNat ≤ 57

def digitsVal (ds : List Char) : Nat :=
  ds.foldl (fun a c => a * 10 + (c.toNat - 48)) 0

/-- chrono `scan::number(s, 1, maxd)`: read at most `maxd` digits, at least
one. -/
def scanNum (maxd : Nat) (s : List Char) : Option (Nat × List Char) :=
  let ds := (s.takeWhile isDig).take maxd
  if ds.isEmpty then none else some (digitsVal ds, s.drop ds.length)

/-- Month-day tail of the `%Y-%m-%d` parse. -/
def ymdTail (y : Int) (r : List Char) : Option (Int × Nat × Nat) :=
  match r with
  | [] => none
  | c :: r2 =>
    if c = '-' then
      match scanNum 2 (trimStart r2) with
      | none => none
      | some (m, r3) =>
        match r3 with
        | [] => none
        | c2 :: r4 =>
          if c2 = '-' then
            match scanNum 2 (trimStart r4) with
            | none => none
            | some (d, r5) =>
              if r5.isEmpty then some (y, m, d) else none
          else none
    else none

/-- chrono parse of `%Y-%m-%d` up to the day field. -/
def parseYmd (s : List Char) : Option (Int × Nat × Nat) :=
  match trimStart s with
  | [] => none
  | c :: r =>
    if c = '-' then
      match scanNum r.length r with
      | none => none
      | some (y, r1) => ymdTail (-(y : Int)) r1
    else if c = '+' then
      match scanNum r.length r with
      | none => none
      | some (y, r1) => ymdTail (y : Int) r1
    else
      match scanNum 4 (c :: r) with
      | none => none
      | some (y, r1) => ymdTail (y : Int) r1

/-- Proleptic-Gregorian leap year. -/
def isLeap (y : Int) : Bool :=
  (y % 4 == 0 && y % 100 != 0) || y % 400 == 0

def daysInMonth (y : Int) (m : Nat) : Nat :=
  match m with
  | 1 => 31 | 2 => if isLeap y then 29 else 28 | 3 => 31 | 4 => 30
  | 5 => 31 | 6 => 30 | 7 => 31 | 8 => 31 | 9 => 30 | 10 => 31
  | 11 => 30 | 12 => 31
  | _ => 0

/-- Validity check of `NaiveDate::from_ymd_opt`, including the chrono year
range (`MIN_YEAR = i32::MIN >> 13`, `MAX_YEAR = i32::MAX >> 13`). -/
def validYmd (y : Int) (m d : Nat) : Bool :=
  decide (-262144 ≤ y) && decide (y ≤ 262143) && decide (1 ≤ m) &&
  decide (m ≤ 12) && decide (1 ≤ d) && decide (d ≤ daysInMonth y m)

/-- Days since 1970-01-01 of a civil date (the algorithm of Howard Hinnant);
`NaiveDate` values are represented by this ordinal, so date ordering and
`Duration::days` arithmetic are ordinary `Int` operations. -/
def daysFromCivil (y : Int) (m d : Nat) : Int :=
  let y1 : Int := if m ≤ 2 then y - 1 else y
  let era : Int := (if 0 ≤ y1 then y1 else y1 - 399) / 400
  let yoe : Int := y1 - era * 400
  let mp : Int := if 2 < m then (m : Int) - 3 else (m : Int) + 9
  let doy : Int := (153 * mp + 2) / 5 + (d : Int) - 1
  let doe : Int := yoe * 365 + yoe / 4 - yoe / 100 + doy
  era * 146097 + doe - 719468

/-- `NaiveDate::parse_from_str(s, "%Y-%m-%d")`, yielding the date ordinal. -/
def chronoParseDate (s : List Char) : Option Int :=
  match parseYmd s with
  | none => none
  | some (y, m, d) =>
    if validYmd y m d then some (daysFromCivil y m d) else none

/-- The error message of `get_date_offset` (`src/notebook.rs:18`). -/
def invalidDateMsg (s : List Char) : List Char :=
  cs "Invalid date format: " ++ s ++ cs ". Expected YYYY-MM-DD"

/-- `get_date_offset` (`src/notebook.rs:10-30`), with "today" as an explicit
ordinal input. -/
def get_date_offset (yesterday tomorrow : Bool) (dateStr : Option (List Char))
    (today : Int) : Except (List Char) Int :=
  match dateStr with
  | some s =>
    match chronoParseDate s with
    | some d => .ok d
    | none => .error (invalidDateMsg s)
  | none =>
    if yesterday then .ok (today - 1)
    else if tomorrow then .ok (today + 1)
    else .ok today

/-- The window filter and presentation order of `list_logs`
(`src/notebook.rs:259-268`): the `BTreeMap` holds dated entries in ascending
date order; the kept ones are reversed for display.  Dates are ordinals,
the second component stands for the file path. -/
def list_logs_window (logs : List (Int × Nat)) (days : Nat) (today : Int) :
    List (Int × Nat) :=
  let cutoff := today - ((days : Int) - 1)
  (logs.filter (fun e => decide (cutoff ≤ e.1) && decide (e.1 ≤ today))).reverse

/-! ## A concrete YAML codec for concrete inputs

`serde_yaml` is an external crate; for evaluating the embedded functions on
concrete documents we use a tiny concrete codec handling flat maps with
string scalar values, one `key: value` pair per line.  All claim theorems
over the abstract codec are instantiated with it in their witnesses. -/

abbrev demoFm : Type := List (String × String)

def demoParseLine (l : List Char) : Option (String × String) :=
  match firstOcc (cs ": ") l with
  | some i => some (⟨l.take i⟩, ⟨l.drop (i + 2)⟩)
  | none => none

def demoParseFm (s : List Char) : Option demoFm :=
  ((s.splitOn lf).filter (fun seg => !seg.isEmpty)).mapM demoParseLine

def demoSerFm (m : demoFm) : List Char :=
  (m.map (fun kv => kv.1.data ++ cs ": " ++ kv.2.data ++ cs "\n")).flatten

def demoCodec : YamlCodec demoFm where
  empty := []
  isEmptyFm := List.isEmpty
  parseFm := demoParseFm
  serFm := demoSerFm
  isEmptyFm_empty := fun a h => by
    cases a with
    | nil => rfl
    | cons x t => simp [List.isEmpty] at h

/-! ## Supporting lemmas -/

theorem sliceFrom_eq {l : List Char} {i : Nat} (h : i ≤ l.length) :
    sliceFrom l i = some (l.drop i) := by simp [sliceFrom, h]

theorem sliceTo_eq {l : List Char} {i : Nat} (h : i ≤ l.length) :
    sliceTo l i = some (l.take i) := by simp [sliceTo, h]

theorem findEndDelim_le {s : List Char} {pos : Nat}
    (h : findEndDelim s = some pos) : pos ≤ s.length := by
  unfold findEndDelim at h
  cases h1 : firstOcc pat1 s with
  | some p => rw [h1] at h; cases h; exact firstOcc_le_length h1
  | none =>
    rw [h1] at h
    cases h2 : firstOcc pat2 s with
    | some p => rw [h2] at h; cases h; exact firstOcc_le_length h2
    | none =>
      rw [h2] at h
      cases h3 : firstOcc pat3 s with
      | some p => rw [h3] at h; cases h; exact firstOcc_le_length h3
      | none => rw [h3] at h; exact firstOcc_le_length h

/-- C10.  Parse totality: the checked parser (in which every Rust slice
operation reports an out-of-bounds index as `none`, i.e. a panic) always
returns `some` of the unchecked result: every input, of any shape and any
mix of line endings, yields a document or a `MalformedFrontmatter` error,
and every slice index `Document::parse` computes is in bounds. -/
theorem c10_parse_total {α : Type} (C : YamlCodec α) (text : List Char) :
    parseChecked C text = some (Document.parse C text) := by
  unfold parseChecked Document.parse
  cases hOr : (begins openLF text || begins openCRLF text) with
  | false => simp [hOr]
  | true =>
    have hafter :
        (if begins openCRLF text then sliceFrom text 5 else sliceFrom text 4) =
          some (if begins openCRLF text then text.drop 5 else text.drop 4) := by
      cases hc : begins openCRLF text with
      | true =>
        have hlen := begins_length hc
        simp only [if_pos rfl]
        exact sliceFrom_eq (by simpa [openCRLF, cs] using hlen)
      | false =>
        have hlf : begins openLF text = true := by
          cases hl : begins openLF text with
          | true => rfl
          | false => rw [hl, hc] at hOr; simp at hOr
        have hlen := begins_length hlf
        simp only [hc, Bool.false_eq_true, if_false]
        exact sliceFrom_eq (by simpa [openLF, cs] using hlen)
    simp only [hOr, Bool.not_true, Bool.false_eq_true, if_false, hafter,
      Option.some_bind]
    set after := if begins openCRLF text then text.drop 5 else text.drop 4
      with hA
    cases hImm : (begins openLF after || begins openCRLF after) with
    | true =>
      have hskip :
          sliceFrom after (if begins openCRLF after then 5 else 4) =
            some (after.drop (if begins openCRLF after then 5 else 4)) := by
        cases hc : begins openCRLF after with
        | true =>
          have hlen := begins_length hc
          exact sliceFrom_eq (by simpa [openCRLF, cs] using hlen)
        | false =>
          have hlf : begins openLF after = true := by
            cases hl : begins openLF after with
            | true => rfl
            | false => rw [hl, hc] at hImm; simp at hImm
          have hlen := begins_length hlf
          exact sliceFrom_eq (by simpa [openLF, cs] using hlen)
      simp [hImm, hskip]
    | false =>
      cases hFind : findEndDelim after with
      | none => simp [hImm, hFind]
      | some pos =>
        have hle := findEndDelim_le hFind
        by_cases hlt : pos + 5 < after.length
        . simp [hImm, hFind, hlt, sliceTo_eq hle, sliceFrom_eq (by omega : pos + 5 ≤ after.length)]
        . simp [hImm, hFind, hlt, sliceTo_eq hle]

theorem dropWhile_append_of_all {p : Char → Bool} {w x : List Char}
    (h : ∀ c ∈ w, p c = true) :
    List.dropWhile p (w ++ x) = List.dropWhile p x := by
  induction w with
  | nil => rfl
  | cons c w' ih =>
    have hc : p c = true := h c (by simp)
    simp only [List.cons_append, List.dropWhile_cons, hc, if_true]
    exact ih (fun d hd => h d (by simp [hd]))

theorem isUnchecked_iff {line : List Char} :
    isUnchecked line = true ↔
      ∃ w r, (∀ c ∈ w, isWs c = true) ∧ line = w ++ cs "- [ ]" ++ r := by
  constructor
  · intro h
    unfold isUnchecked trimStart at h
    obtain ⟨r, hr⟩ := begins_iff_eq_append.mp h
    refine ⟨line.takeWhile isWs, r, ?_, ?_⟩
    · intro c hc
      exact List.mem_takeWhile_imp hc
    · conv_lhs => rw [← List.takeWhile_append_dropWhile (p := isWs) (l := line)]
      rw [hr, List.append_assoc]
  · rintro ⟨w, r, hw, rfl⟩
    unfold isUnchecked trimStart
    rw [List.append_assoc, dropWhile_append_of_all hw]
    rw [show List.dropWhile isWs (cs "- [ ]" ++ r) = cs "- [ ]" ++ r from by
      have h1 : isWs '-' = false := by decide
      simp [cs, List.dropWhile_cons, h1]]
    exact begins_append _ _

/-- C5.  Unchecked extraction: `find_unchecked_todos` returns exactly the
lines whose text, after stripping leading whitespace, begins with the
literal marker `- [ ]` (equivalently, a whitespace prefix followed by the
marker), in original top-to-bottom order (a sublist of the lines of the
content), the text of each line preserved as produced by `str::lines`; and on
`"- [x] A\n  - [ ] B\n- [ ] C\n"` it returns exactly
`["  - [ ] B", "- [ ] C"]` in that order. -/
theorem c5_extract_unchecked :
    (∀ content line, line ∈ find_unchecked_todos content ↔
      (line ∈ rustLines content ∧
        ∃ w r, (∀ c ∈ w, isWs c = true) ∧ line = w ++ cs "- [ ]" ++ r)) ∧
    (∀ content, (find_unchecked_todos content).Sublist (rustLines content)) ∧
    find_unchecked_todos (cs "- [x] A\n  - [ ] B\n- [ ] C\n") =
      [cs "  - [ ] B", cs "- [ ] C"] := by
  refine ⟨?_, ?_, by rfl⟩
  · intro content line
    rw [find_unchecked_todos, List.mem_filter, isUnchecked_iff]
  · intro content
    exact List.filter_sublist _

theorem findIdxQ_lt_length {α : Type} {p : α → Bool} {l : List α} {i : Nat}
    (h : l.findIdx? p = some i) : i < l.length := by
  induction l generalizing i with
  | nil => simp at h
  | cons a t ih =>
    rw [show (a :: t).findIdx? p =
        if p a then some 0 else (t.findIdx? p).map (· + 1) from by
      simp [List.findIdx?_cons]] at h
    split at h
    · cases h; simp
    · rcases Option.map_eq_some'.mp h with ⟨k, hk, rfl⟩
      have := ih hk
      simp only [List.length_cons]
      omega

/-- The section-scan predicate of `rollover_todos`. -/
def nextSection (l : List Char) : Bool := begins (cs "##") (rustTrim l)

theorem scanIdxAux_eq {lines : List (List Char)} {fuel pos : Nat}
    (h : lines.length ≤ fuel + pos) :
    scanIdxAux fuel lines pos =
      pos + (lines.drop pos).findIdx nextSection := by
  induction fuel generalizing pos with
  | zero =>
    have hnil : lines.drop pos = [] := List.drop_eq_nil_of_le (by omega)
    simp only [scanIdxAux, hnil]
    rfl
  | succ fuel ih =>
    cases hg : lines[pos]? with
    | none =>
      have hge : lines.length ≤ pos := by
        by_contra hc
        rw [List.getElem?_eq_getElem (by omega)] at hg
        cases hg
      have hnil : lines.drop pos = [] := List.drop_eq_nil_of_le hge
      simp only [scanIdxAux, hg, hnil]
      rfl
    | some line =>
      have hlt : pos < lines.length := by
        by_contra hc
        rw [List.getElem?_eq_none (by omega)] at hg
        cases hg
      have hdrop : lines.drop pos = lines[pos] :: lines.drop (pos + 1) :=
        List.drop_eq_getElem_cons hlt
      have hline : lines[pos] = line := by
        rw [List.getElem?_eq_getElem hlt] at hg
        exact Option.some.inj hg
      rw [hdrop, hline, List.findIdx_cons]
      cases hp : nextSection line with
      | true =>
        have hb : begins (cs "##") (rustTrim line) = true := hp
        simp [scanIdxAux, hg, hb, hp]
      | false =>
        have hb : begins (cs "##") (rustTrim line) = false := hp
        simp only [scanIdxAux, hg, hb, Bool.false_eq_true, if_false, hp,
          cond_false]
        rw [ih (by omega)]
        omega

theorem insertTodos_eq {l : List (List Char)} {pos : Nat}
    (todos : List (List Char)) (h : pos ≤ l.length) :
    insertTodos l pos todos = l.take pos ++ todos ++ l.drop pos := by
  induction todos generalizing l pos with
  | nil => simp [insertTodos]
  | cons t ts ih =>
    have hlen : (insertAt l pos t).length = l.length + 1 := by
      simp only [insertAt, List.length_append, List.length_cons,
        List.length_take, List.length_drop]
      omega
    have htk : (insertAt l pos t).take (pos + 1) = l.take pos ++ [t] := by
      unfold insertAt
      rw [List.take_append_eq_append_take]
      have h1 : (l.take pos).take (pos + 1) = l.take pos := by
        rw [List.take_take]
        congr 1
        omega
      have h2 : pos + 1 - (l.take pos).length = 1 := by
        rw [List.length_take]
        omega
      rw [h1, h2]
      simp
    have hdr : (insertAt l pos t).drop (pos + 1) = l.drop pos := by
      unfold insertAt
      rw [List.drop_append_eq_append_drop]
      have h1 : (l.take pos).drop (pos + 1) = [] :=
        List.drop_eq_nil_of_le (by rw [List.length_take]; omega)
      have h2 : pos + 1 - (l.take pos).length = 1 := by
        rw [List.length_take]
        omega
      rw [h1, h2]
      simp
    calc insertTodos l pos (t :: ts)
        = insertTodos (insertAt l pos t) (pos + 1) ts := rfl
      _ = (insertAt l pos t).take (pos + 1) ++ ts ++
            (insertAt l pos t).drop (pos + 1) := ih (by omega)
      _ = l.take pos ++ (t :: ts) ++ l.drop pos := by
          rw [htk, hdr]
          simp

/-- The insertion index of the rollover merge, as the claim describes it:
the line after the first line trimmed-equal to `## Personal`, advanced to
just before the next line trimmed-beginning with `##` (`List.findIdx`
returns the length of the remainder when there is none), or the end of the
document when the marker is absent. -/
def specInsertIdx (lines : List (List Char)) : Nat :=
  match lines.findIdx? (fun l => rustTrim l == cs "## Personal") with
  | some idx => (idx + 1) + (lines.drop (idx + 1)).findIdx nextSection
  | none => lines.length

theorem specInsertIdx_le (lines : List (List Char)) :
    specInsertIdx lines ≤ lines.length := by
  unfold specInsertIdx
  cases hf : lines.findIdx? (fun l => rustTrim l == cs "## Personal") with
  | none => simp
  | some idx =>
    simp only
    have h1 := findIdxQ_lt_length hf
    have h2 := @List.findIdx_le_length _ nextSection (lines.drop (idx + 1))
    simp only [List.length_drop] at h2
    omega

/-- C6.  Rollover insertion point and block: merging splices, at the index
described by the claim (line after the first line trimmed-equal to
`## Personal`, advanced to just before the next line trimmed-beginning with
`##`, or the end of the document), exactly one blank line, the header
`### Rolled over from <label>`, one blank line and the item lines in order,
leaving every other line untouched; in particular, for the target
`"# T\n\n## Personal\n\nexisting\n\n## Notes\n"` with item `"- [ ] X"` and
label `"Mon 1 Jan 2024"`, the block lands strictly between `existing` and
`## Notes`, `existing` untouched. -/
theorem c6_rollover_insertion :
    (∀ content todos label,
      rolloverMerge content todos label =
        joinNl ((rustLines content).take (specInsertIdx (rustLines content))
          ++ [[], rolloverHeader label, []] ++ todos ++
          (rustLines content).drop (specInsertIdx (rustLines content))) ++
          cs "\n") ∧
    rolloverMerge (cs "# T\n\n## Personal\n\nexisting\n\n## Notes\n")
      [cs "- [ ] X"] (cs "Mon 1 Jan 2024") =
      cs "# T\n\n## Personal\n\nexisting\n\n\n### Rolled over from Mon 1 Jan 2024\n\n- [ ] X\n## Notes\n" := by
  refine ⟨?_, by rfl⟩
  intro content todos label
  have hk := specInsertIdx_le (rustLines content)
  have hpos :
      (match (rustLines content).findIdx?
          (fun l => rustTrim l == cs "## Personal") with
        | some idx => scanIdx (rustLines content) (idx + 1)
        | none => (rustLines content).length) =
        specInsertIdx (rustLines content) := by
    unfold specInsertIdx scanIdx
    cases hf : (rustLines content).findIdx?
        (fun l => rustTrim l == cs "## Personal") with
    | none => simp
    | some idx =>
      simp only
      exact scanIdxAux_eq (by have := findIdxQ_lt_length hf; omega)
  have hchain : ∀ (ls : List (List Char)) (k : Nat),
      insertTodos (insertAt (insertAt (insertAt ls k [])
          (k + 1) (rolloverHeader label)) (k + 2) []) (k + 3) todos =
        insertTodos ls k ([] :: rolloverHeader label :: [] :: todos) :=
    fun ls k => rfl
  simp only [rolloverMerge, hpos, hchain]
  rw [insertTodos_eq _ hk]
  simp [List.append_assoc]

/-- C4 counterexample.  Two value-equal documents — identical key-value
mappings `{a: 1, b: 2}` with unique keys, differing only in the in-memory
iteration order of the `HashMap`, which Rust leaves unspecified — serialize
to different strings, so serialization is not determined by value equality
once the frontmatter has more than one key. -/
theorem c4_counterexample :
    List.Perm ([("a", "1"), ("b", "2")] : demoFm) [("b", "2"), ("a", "1")] ∧
    (([("a", "1"), ("b", "2")] : demoFm).map Prod.fst).Nodup ∧
    Document.toStr demoCodec ⟨[("a", "1"), ("b", "2")], cs "c"⟩ ≠
      Document.toStr demoCodec ⟨[("b", "2"), ("a", "1")], cs "c"⟩ := by
  refine ⟨List.Perm.swap _ _ _, by decide, by decide⟩

/-- C4 amended.  Serialization is a deterministic function of the
in-memory representation of the document, and for documents whose frontmatter
holds at most one key, value equality (permutation of the key-value
entries) does determine the serialized output; with more than one key the
unspecified `HashMap` iteration order can produce different outputs for
value-equal documents (see the counterexample). -/
theorem c4_determinism_amended (fm1 fm2 : demoFm) (c : List Char)
    (hperm : List.Perm fm1 fm2) (hlen : fm1.length ≤ 1) :
    Document.toStr demoCodec ⟨fm1, c⟩ = Document.toStr demoCodec ⟨fm2, c⟩ := by
  have heq : fm1 = fm2 := by
    cases fm1 with
    | nil =>
      have := List.perm_nil.mp hperm.symm
      rw [this]
    | cons x t =>
      cases t with
      | nil => exact List.singleton_perm.mp hperm
      | cons y t2 => simp at hlen
  rw [heq]

/-- C4 witness. -/
theorem c4_determinism_witness :
    Document.toStr demoCodec ⟨[("a", "1")], cs "c"⟩ =
      Document.toStr demoCodec ⟨[("a", "1")], cs "c"⟩ :=
  c4_determinism_amended [("a", "1")] [("a", "1")] (cs "c")
    (List.Perm.refl _) (by decide)

/-- A concrete log directory for the window example: files dated
2024-06-02, 2024-06-03, 2024-06-04 and 2024-06-10 (in the ascending date
order a `BTreeMap` iterates in), with `Nat` path identifiers. -/
def exLogs : List (Int × Nat) :=
  [(daysFromCivil 2024 6 2, 0), (daysFromCivil 2024 6 3, 1),
   (daysFromCivil 2024 6 4, 2), (daysFromCivil 2024 6 10, 3)]

/-- C8 counterexample.  With `window_days = 7` and `today = 2024-06-10`,
the cutoff is `today - 6 = 2024-06-04`, so a file dated 2024-06-03 — present
in the directory — is excluded from the listing, contradicting the example of
the claim, which asserts it is included. -/
theorem c8_counterexample :
    (daysFromCivil 2024 6 3, 1) ∈ exLogs ∧
    (daysFromCivil 2024 6 3, 1) ∉
      list_logs_window exLogs 7 (daysFromCivil 2024 6 10) := by
  constructor
  · decide
  · decide

/-- C8 amended.  A dated file is kept iff its date lies in the inclusive
window `[today - (window_days - 1), today]`, and the kept records appear in
descending date order (given the ascending `BTreeMap` input order); the
example in the claim is off by one: for `window_days = 7` and
`today = 2024-06-10` the window is `[2024-06-04, 2024-06-10]`, so 2024-06-04
is included while 2024-06-03 and 2024-06-02 are excluded. -/
theorem c8_window_amended :
    (∀ (logs : List (Int × Nat)) (days : Nat) (today : Int) (e : Int × Nat),
      e ∈ list_logs_window logs days today ↔
        (e ∈ logs ∧ today - ((days : Int) - 1) ≤ e.1 ∧ e.1 ≤ today)) ∧
    (∀ (logs : List (Int × Nat)) (days : Nat) (today : Int),
      logs.Pairwise (fun a b => a.1 < b.1) →
      (list_logs_window logs days today).Pairwise (fun a b => b.1 < a.1)) ∧
    list_logs_window exLogs 7 (daysFromCivil 2024 6 10) =
      [(daysFromCivil 2024 6 10, 3), (daysFromCivil 2024 6 4, 2)] := by
  refine ⟨?_, ?_, by decide⟩
  · intro logs days today e
    simp [list_logs_window, List.mem_reverse, List.mem_filter, and_assoc]
  · intro logs days today hasc
    unfold list_logs_window
    rw [List.pairwise_reverse]
    exact List.Pairwise.filter _ hasc

/-- C8 witness. -/
theorem c8_window_witness :
    (list_logs_window exLogs 7 (daysFromCivil 2024 6 10)).Pairwise
      (fun a b => b.1 < a.1) :=
  c8_window_amended.2.1 exLogs 7 (daysFromCivil 2024 6 10) (by decide)

theorem createFromTemplate_frame {α : Type} (C : YamlCodec α) (fs : FS)
    (tpl tgt : String) (dl dsh : List Char) {q : String} (hq : q ≠ tgt) :
    ∀ fs1, createFromTemplate C fs tpl tgt dl dsh = .ok fs1 → fs1 q = fs q := by
  intro fs1 h
  unfold createFromTemplate at h
  split at h
  · cases h
  · split at h
    · cases h
    · cases h
      simp [fsWrite, hq]

theorem rolloverWrite_frame {α : Type} (C : YamlCodec α) (fs1 : FS)
    (tmp : String) (todos : List (List Char)) (lbl : List Char)
    {q : String} (hq : q ≠ tmp) :
    (rolloverWrite C fs1 tmp todos lbl).2 q = fs1 q := by
  unfold rolloverWrite
  split
  · rfl
  · split
    · rfl
    · simp [fsWrite, hq]

/-- C9.  Rollover frame: (a) whatever the outcome, `rollover_todos` never
changes the source file (the one for today) — the only path ever written is
that of tomorrow; (b) when the document of today parses and has zero unchecked items,
the operation reports success and leaves the entire file system untouched:
the file for tomorrow is byte-identical, and is not created when absent. -/
theorem c9_rollover_frame {α : Type} (C : YamlCodec α) :
    (∀ (fs : FS) (tp tmp tpl : String) (dl dsh lbl : List Char),
      tp ≠ tmp →
      (rollover C fs tp tmp tpl dl dsh lbl).2 tp = fs tp) ∧
    (∀ (fs : FS) (tp tmp tpl : String) (dl dsh lbl : List Char)
      (t : List Char) (d : Document α),
      fs tp = some t → Document.parse C t = .ok d →
      find_unchecked_todos d.content = [] →
      rollover C fs tp tmp tpl dl dsh lbl = (.ok (), fs)) := by
  constructor
  · intro fs tp tmp tpl dl dsh lbl hne
    unfold rollover
    split
    · rfl
    · split
      · rfl
      · rename_i tdoc heq2
        cases hT : (find_unchecked_todos tdoc.content).isEmpty with
        | true => rfl
        | false =>
          simp only [Bool.false_eq_true, if_false]
          cases hX : (if (fs tmp).isSome then Except.ok fs
              else createFromTemplate C fs tpl tmp dl dsh :
                Except RollErr FS) with
          | error e => simp [hX]
          | ok fs1 =>
            have hfs1 : fs1 tp = fs tp := by
              by_cases hSome : (fs tmp).isSome
              · rw [if_pos hSome] at hX
                cases hX
                rfl
              · rw [if_neg hSome] at hX
                exact createFromTemplate_frame C fs tpl tmp dl dsh hne fs1 hX
            simp only [hX]
            rw [rolloverWrite_frame C fs1 tmp _ lbl hne]
            exact hfs1
  · intro fs tp tmp tpl dl dsh lbl t d hfs hp hz
    unfold rollover
    split
    · rename_i heq
      rw [hfs] at heq
      cases heq
    · rename_i t2 heq
      rw [hfs] at heq
      cases heq
      split
      · rename_i e heq2
        rw [hp] at heq2
        cases heq2
      · rename_i d2 heq2
        rw [hp] at heq2
        cases heq2
        rw [if_pos (by rw [hz]; rfl)]

/-- A one-file file system for the rollover witness: the log for today exists and
has no unchecked items. -/
def exFS0 : FS := fun p =>
  if p = "Log/2024-06-10.md" then some (cs "# A\n- [x] done\n") else none

/-- C9 witness. -/
theorem c9_rollover_frame_witness :
    rollover demoCodec exFS0 "Log/2024-06-10.md" "Log/2024-06-11.md"
      "+Templates/Daily Note.md" (cs "Tue 11 June 2024") (cs "11 June 2024")
      (cs "Mon 10 June 2024") = (.ok (), exFS0) ∧
    (rollover demoCodec exFS0 "Log/2024-06-10.md" "Log/2024-06-11.md"
      "+Templates/Daily Note.md" (cs "Tue 11 June 2024") (cs "11 June 2024")
      (cs "Mon 10 June 2024")).2 "Log/2024-06-10.md" =
      exFS0 "Log/2024-06-10.md" :=
  ⟨(c9_rollover_frame demoCodec).2 exFS0 _ _ _ _ _ _ (cs "# A\n- [x] done\n")
      ⟨[], cs "# A\n- [x] done\n"⟩ (by decide) (by rfl) (by rfl),
    (c9_rollover_frame demoCodec).1 exFS0 _ _ _ _ _ _ (by decide)⟩

theorem digit_not_ws {c : Char} (h : isDig c = true) : isWs c = false := by
  cases hw : isWs c with
  | false => rfl
  | true =>
    exfalso
    unfold isDig at h
    unfold isWs at hw
    simp only [Bool.and_eq_true, Bool.or_eq_true, decide_eq_true_eq,
      beq_iff_eq] at h hw
    omega

theorem digit_ne_dash {c : Char} (h : isDig c = true) : ¬ (c = '-') := by
  intro hc
  subst hc
  exact absurd h (by decide)

theorem digit_ne_plus {c : Char} (h : isDig c = true) : ¬ (c = '+') := by
  intro hc
  subst hc
  exact absurd h (by decide)

/-- The acceptance condition of the claim for an explicit date string: exactly
four digits, a dash, two digits, a dash, two digits, denoting a real
calendar date. -/
def specStrictYmd (s : List Char) : Prop :=
  ∃ a b c d e f g h : Char,
    s = [a, b, c, d, '-', e, f, '-', g, h] ∧
    (∀ x ∈ [a, b, c, d, e, f, g, h], isDig x = true) ∧
    validYmd ((digitsVal [a, b, c, d] : Nat) : Int) (digitsVal [e, f])
      (digitsVal [g, h]) = true

theorem strict_parse_ok {s : List Char} (hs : specStrictYmd s) :
    ∃ y m d, parseYmd s = some (y, m, d) ∧ validYmd y m d = true := by
  obtain ⟨a, b, c, d, e, f, g, h, rfl, hdig, hval⟩ := hs
  have ha := hdig a (by simp)
  have hb := hdig b (by simp)
  have hc := hdig c (by simp)
  have hd := hdig d (by simp)
  have he := hdig e (by simp)
  have hf := hdig f (by simp)
  have hg := hdig g (by simp)
  have hh := hdig h (by simp)
  refine ⟨((digitsVal [a, b, c, d] : Nat) : Int), digitsVal [e, f],
    digitsVal [g, h], ?_, hval⟩
  have htrim : trimStart [a, b, c, d, '-', e, f, '-', g, h] =
      [a, b, c, d, '-', e, f, '-', g, h] := by
    simp [trimStart, List.dropWhile_cons, digit_not_ws ha]
  have htrim2 : trimStart [e, f, '-', g, h] = [e, f, '-', g, h] := by
    simp [trimStart, List.dropWhile_cons, digit_not_ws he]
  have htrim3 : trimStart [g, h] = [g, h] := by
    simp [trimStart, List.dropWhile_cons, digit_not_ws hg]
  have hdashIsDig : isDig '-' = false := by decide
  have hscan1 : scanNum 4 [a, b, c, d, '-', e, f, '-', g, h] =
      some (digitsVal [a, b, c, d], ['-', e, f, '-', g, h]) := by
    simp [scanNum, List.takeWhile_cons, ha, hb, hc, hd, hdashIsDig,
      List.take, List.drop]
  have hscan2 : scanNum 2 [e, f, '-', g, h] =
      some (digitsVal [e, f], ['-', g, h]) := by
    simp [scanNum, List.takeWhile_cons, he, hf, hdashIsDig,
      List.take, List.drop]
  have hscan3 : scanNum 2 [g, h] = some (digitsVal [g, h], []) := by
    simp [scanNum, List.takeWhile_cons, hg, hh, List.take, List.drop]
  simp only [parseYmd, htrim]
  rw [if_neg (digit_ne_dash ha), if_neg (digit_ne_plus ha), hscan1]
  simp [ymdTail, htrim2, hscan2, htrim3, hscan3]

/-- C7 counterexample.  `"2024-6-1"` does not match the claimed
four-digit-year/two-digit-month/two-digit-day pattern, yet explicit-date
resolution accepts it (the chrono `%Y-%m-%d` parsing is lenient about digit
counts), instead of failing with `InvalidDate` as the claim requires for
every non-matching string. -/
theorem c7_counterexample :
    ¬ specStrictYmd (cs "2024-6-1") ∧
    get_date_offset false false (some (cs "2024-6-1")) 0 =
      .ok (daysFromCivil 2024 6 1) := by
  constructor
  · rintro ⟨a, b, c, d, e, f, g, h, heq, -, -⟩
    simp [cs] at heq
  · rfl

/-- C7 amended.  Explicit-date resolution accepts every string matching the
strict 4-digit/2-digit/2-digit real-date pattern of the claim, and in general
succeeds exactly on the lenient chrono `%Y-%m-%d` grammar (one to four year
digits or a signed year, one or two month/day digits, optional whitespace
before numeric fields, no trailing characters, real proleptic-Gregorian
date in the chrono year range); every other string fails with the
`InvalidDate` message, before any file I/O (the function is pure and its
callers resolve the date before touching any path). -/
theorem c7_explicit_date_amended :
    (∀ (yb tb : Bool) (today : Int) (s : List Char), specStrictYmd s →
      ∃ d, get_date_offset yb tb (some s) today = .ok d) ∧
    (∀ (yb tb : Bool) (today : Int) (s : List Char),
      chronoParseDate s = none →
      get_date_offset yb tb (some s) today = .error (invalidDateMsg s)) ∧
    (∀ (yb tb : Bool) (today : Int) (s : List Char) (d : Int),
      chronoParseDate s = some d →
      get_date_offset yb tb (some s) today = .ok d) := by
  refine ⟨?_, ?_, ?_⟩
  · intro yb tb today s hs
    obtain ⟨y, m, d, hp, hv⟩ := strict_parse_ok hs
    refine ⟨daysFromCivil y m d, ?_⟩
    simp only [get_date_offset, chronoParseDate, hp, hv, if_true]
  · intro yb tb today s hn
    simp only [get_date_offset, hn]
  · intro yb tb today s d hd
    simp only [get_date_offset, hd]

/-- C7 witness. -/
theorem c7_explicit_date_witness :
    ∃ d, get_date_offset false false (some (cs "2024-06-10")) 0 = .ok d :=
  c7_explicit_date_amended.1 false false 0 (cs "2024-06-10")
    ⟨'2', '0', '2', '4', '0', '6', '1', '0', by decide, by decide, by decide⟩

/-! ## Closing-delimiter grammar -/

/-- A bare `---`. -/
def dashes3 : List Char := cs "---"

/-- The two line-break conventions. -/
def nlSet : List (List Char) := [[lf], [cr, lf]]

/-- The emitted text between the serialized frontmatter and the content in
`Document::to_string`. -/
def closeTail : List Char := cs "---\n\n"

/-- Rust `str::starts_with` on the two opening delimiters
(`src/document.rs:47`). -/
def startsOpen (text : List Char) : Bool :=
  begins openLF text || begins openCRLF text

/-- The text after the opening delimiter (`src/document.rs:53-57`). -/
def afterOpen (text : List Char) : List Char :=
  if begins openCRLF text then text.drop 5 else text.drop 4

/-- The immediate-closing-delimiter test (`src/document.rs:60-61`). -/
def immediateClose (s : List Char) : Bool :=
  begins openLF s || begins openCRLF s

/-- A later line consisting solely of `---`, terminated by a line break,
with either line-ending convention on either side. -/
def CloseLineExists (s : List Char) : Prop :=
  ∃ u v nl1 nl2, nl1 ∈ nlSet ∧ nl2 ∈ nlSet ∧
    s = u ++ nl1 ++ dashes3 ++ nl2 ++ v

theorem occurs_of_decomp {pat s u v : List Char} (h : s = u ++ pat ++ v) :
    (firstOcc pat s).isSome := by
  apply firstOcc_isSome_of_begins (i := u.length)
  rw [h, List.append_assoc, List.drop_left]
  exact begins_append pat v

theorem firstOcc_eq_some_of {pat l : List Char} {i : Nat}
    (hb : begins pat (l.drop i) = true)
    (hmin : ∀ j, j < i → begins pat (l.drop j) = false) :
    firstOcc pat l = some i := by
  have hs := firstOcc_isSome_of_begins hb
  obtain ⟨j, hj⟩ := Option.isSome_iff_exists.mp hs
  have hbj := firstOcc_begins hj
  have hminj := firstOcc_min hj
  by_cases hlt : j < i
  · rw [hmin j hlt] at hbj
    cases hbj
  · by_cases hgt : i < j
    · rw [hminj i hgt] at hb
      cases hb
    · have hji : j = i := by omega
      rw [← hji]
      exact hj

theorem findEndDelim_none_parts {s : List Char}
    (h : findEndDelim s = none) :
    firstOcc pat1 s = none ∧ firstOcc pat2 s = none ∧
    firstOcc pat3 s = none ∧ firstOcc pat4 s = none := by
  unfold findEndDelim at h
  cases h1 : firstOcc pat1 s with
  | some p => rw [h1] at h; cases h
  | none =>
    rw [h1] at h
    cases h2 : firstOcc pat2 s with
    | some p => rw [h2] at h; cases h
    | none =>
      rw [h2] at h
      cases h3 : firstOcc pat3 s with
      | some p => rw [h3] at h; cases h
      | none =>
        rw [h3] at h
        exact ⟨rfl, rfl, rfl, h⟩

theorem findEndDelim_isSome_of_close {s : List Char}
    (h : CloseLineExists s) : (findEndDelim s).isSome := by
  cases hF : findEndDelim s with
  | some p => rfl
  | none =>
    exfalso
    obtain ⟨hn1, hn2, hn3, hn4⟩ := findEndDelim_none_parts hF
    obtain ⟨u, v, nl1, nl2, hnl1, hnl2, hs⟩ := h
    simp only [nlSet, List.mem_cons, List.not_mem_nil, or_false] at hnl1 hnl2
    rcases hnl1 with rfl | rfl <;> rcases hnl2 with rfl | rfl
    · have : s = u ++ pat1 ++ v := by
        rw [hs]
        simp [pat1, dashes3, cs, lf, cr]
      have ho := occurs_of_decomp this
      rw [hn1] at ho
      cases ho
    · have : s = u ++ pat3 ++ v := by
        rw [hs]
        simp [pat3, dashes3, cs, lf, cr]
      have ho := occurs_of_decomp this
      rw [hn3] at ho
      cases ho
    · have : s = (u ++ [cr]) ++ pat1 ++ v := by
        rw [hs]
        simp [pat1, dashes3, cs, lf, cr]
      have ho := occurs_of_decomp this
      rw [hn1] at ho
      cases ho
    · have : s = (u ++ [cr]) ++ pat3 ++ v := by
        rw [hs]
        simp [pat3, dashes3, cs, lf, cr]
      have ho := occurs_of_decomp this
      rw [hn3] at ho
      cases ho

theorem trimStart_cons_ws {c : Char} {x : List Char} (h : isWs c = true) :
    trimStart (c :: x) = trimStart x := by
  simp [trimStart, List.dropWhile_cons, h]

theorem drop_end_of_occ {pat s : List Char} {p : Nat}
    (h : firstOcc pat s = some p) (h5 : 5 ≤ pat.length) :
    s.drop (p + 5) = pat.drop 5 ++ s.drop (p + pat.length) := by
  have hd := firstOcc_decomp h
  have hp := firstOcc_le_length h
  conv_lhs => rw [hd]
  rw [List.append_assoc, List.drop_append_eq_append_drop]
  rw [List.drop_eq_nil_of_le (by rw [List.length_take]; omega)]
  have harr : p + 5 - (s.take p).length = 5 := by
    rw [List.length_take]
    omega
  rw [harr, List.drop_append_eq_append_drop]
  have h0 : 5 - pat.length = 0 := by omega
  rw [h0, List.drop_zero, List.nil_append]

theorem findEndDelim_decomp {s : List Char} {pos : Nat}
    (h : findEndDelim s = some pos) :
    ∃ nl1 nl2 raw, nl1 ∈ nlSet ∧ nl2 ∈ nlSet ∧
      s = s.take pos ++ nl1 ++ dashes3 ++ nl2 ++ raw ∧
      trimStart (s.drop (pos + 5)) = trimStart raw := by
  unfold findEndDelim at h
  cases h1 : firstOcc pat1 s with
  | some p =>
    rw [h1] at h
    cases h
    refine ⟨[lf], [lf], s.drop (pos + 5), by simp [nlSet], by simp [nlSet],
      ?_, rfl⟩
    have hd := firstOcc_decomp h1
    conv_lhs => rw [hd]
    simp [pat1, dashes3, cs, lf]
  | none =>
    rw [h1] at h
    cases h2 : firstOcc pat2 s with
    | some p =>
      rw [h2] at h
      cases h
      refine ⟨[cr, lf], [cr, lf], s.drop (pos + 7), by simp [nlSet],
        by simp [nlSet], ?_, ?_⟩
      · have hd := firstOcc_decomp h2
        conv_lhs => rw [hd]
        simp [pat2, dashes3, cs, lf, cr]
      · have he := drop_end_of_occ h2 (by simp [pat2, cs])
        rw [he]
        simp only [show pat2.drop 5 = [cr, lf] from by simp [pat2, cs, cr, lf],
          List.cons_append, List.nil_append]
        rw [trimStart_cons_ws (by decide), trimStart_cons_ws (by decide)]
        simp [pat2, cs]
    | none =>
      rw [h2] at h
      cases h3 : firstOcc pat3 s with
      | some p =>
        rw [h3] at h
        cases h
        refine ⟨[lf], [cr, lf], s.drop (pos + 6), by simp [nlSet],
          by simp [nlSet], ?_, ?_⟩
        · have hd := firstOcc_decomp h3
          conv_lhs => rw [hd]
          simp [pat3, dashes3, cs, lf, cr]
        · have he := drop_end_of_occ h3 (by simp [pat3, cs])
          rw [he]
          simp only [show pat3.drop 5 = [lf] from by simp [pat3, cs, cr, lf],
            List.cons_append, List.nil_append]
          rw [trimStart_cons_ws (by decide)]
          simp [pat3, cs]
      | none =>
        rw [h3] at h
        refine ⟨[cr, lf], [lf], s.drop (pos + 6), by simp [nlSet],
          by simp [nlSet], ?_, ?_⟩
        · have hd := firstOcc_decomp h
          conv_lhs => rw [hd]
          simp [pat4, dashes3, cs, lf, cr]
        · have he := drop_end_of_occ h (by simp [pat4, cs])
          rw [he]
          simp only [show pat4.drop 5 = [lf] from by simp [pat4, cs, cr, lf],
            List.cons_append, List.nil_append]
          rw [trimStart_cons_ws (by decide)]
          simp [pat4, cs]

theorem parse_content_eq {after : List Char} {pos : Nat} :
    (if pos + 5 < after.length then after.drop (pos + 5) else []) =
      after.drop (pos + 5) := by
  split
  · rfl
  · rw [List.drop_eq_nil_of_le (by omega)]

theorem parse_open_reduce {α : Type} (C : YamlCodec α) {text : List Char}
    (hopen : startsOpen text = true)
    (himm : immediateClose (afterOpen text) = false) :
    Document.parse C text =
      (match findEndDelim (afterOpen text) with
       | some pos => fmStep C ((afterOpen text).take pos)
           (trimStart ((afterOpen text).drop (pos + 5)))
       | none => .ok (Document.withContent C text)) := by
  unfold startsOpen at hopen
  unfold immediateClose at himm
  unfold Document.parse
  rw [hopen]
  simp only [Bool.not_true, Bool.false_eq_true, if_false]
  rw [show (if begins openCRLF text then text.drop 5 else text.drop 4) =
      afterOpen text from rfl]
  rw [himm]
  simp only [Bool.false_eq_true, if_false]
  cases hF : findEndDelim (afterOpen text) with
  | some pos => simp only [hF, parse_content_eq]
  | none => simp only [hF]

theorem fmStep_ok_content {α : Type} {C : YamlCodec α} {a b : List Char}
    {d : Document α} (h : fmStep C a b = .ok d) : d.content = b := by
  unfold fmStep at h
  by_cases ht : (rustTrim a).isEmpty = true
  · rw [if_pos ht] at h
    cases h
    rfl
  · rw [if_neg ht] at h
    cases hp : C.parseFm a with
    | some m =>
      rw [hp] at h
      cases h
      rfl
    | none =>
      rw [hp] at h
      cases h

theorem afterOpen_length_lt {text : List Char}
    (hopen : startsOpen text = true) :
    (afterOpen text).length < text.length := by
  unfold startsOpen at hopen
  unfold afterOpen
  cases hc : begins openCRLF text with
  | true =>
    have hlen := begins_length hc
    simp [openCRLF, cs] at hlen
    simp [List.length_drop]
    omega
  | false =>
    have hlf : begins openLF text = true := by
      cases hl : begins openLF text with
      | true => rfl
      | false => rw [hl, hc] at hopen; cases hopen
    have hlen := begins_length hlf
    simp only [hc, Bool.false_eq_true, if_false, List.length_drop]
    simp [openLF, cs] at hlen
    omega

/-- C2 amended.  For a text that begins with the opening delimiter and is
not immediately closed: parse falls back to the whole original text as
content with empty frontmatter exactly when no later line consisting solely
of `---` *terminated by a line break* exists (a final `---` at end of input
without a line break is not recognized — this is the amendment); and when
such a line exists, the text after the opening delimiter splits as
frontmatter block, line-break-delimited `---` line, and remainder, with
parse handing the block to the frontmatter step and the trimmed remainder
becoming the content. -/
theorem c2_closing_amended {α : Type} (C : YamlCodec α) (text : List Char)
    (hopen : startsOpen text = true)
    (himm : immediateClose (afterOpen text) = false) :
    (Document.parse C text = .ok (Document.withContent C text) ↔
      ¬ CloseLineExists (afterOpen text)) ∧
    (CloseLineExists (afterOpen text) →
      ∃ fm nl1 nl2 raw, nl1 ∈ nlSet ∧ nl2 ∈ nlSet ∧
        afterOpen text = fm ++ nl1 ++ dashes3 ++ nl2 ++ raw ∧
        Document.parse C text = fmStep C fm (trimStart raw)) := by
  have hred := parse_open_reduce C hopen himm
  constructor
  · constructor
    · intro hp hcl
      have hS := findEndDelim_isSome_of_close hcl
      obtain ⟨pos, hF⟩ := Option.isSome_iff_exists.mp hS
      rw [hF] at hred
      rw [hred] at hp
      have hc := fmStep_ok_content hp
      have hA := afterOpen_length_lt hopen
      have h1 : (trimStart ((afterOpen text).drop (pos + 5))).length ≤
          ((afterOpen text).drop (pos + 5)).length :=
        (List.dropWhile_suffix _).length_le
      rw [List.length_drop] at h1
      have hctext : (Document.withContent C text).content = text := rfl
      rw [hctext] at hc
      rw [← hc] at h1
      omega
    · intro hncl
      cases hF : findEndDelim (afterOpen text) with
      | none =>
        rw [hF] at hred
        exact hred
      | some pos =>
        exfalso
        obtain ⟨nl1, nl2, raw, h1, h2, hdec, -⟩ := findEndDelim_decomp hF
        exact hncl ⟨(afterOpen text).take pos, raw, nl1, nl2, h1, h2, hdec⟩
  · intro hcl
    have hS := findEndDelim_isSome_of_close hcl
    obtain ⟨pos, hF⟩ := Option.isSome_iff_exists.mp hS
    obtain ⟨nl1, nl2, raw, h1, h2, hdec, htrim⟩ := findEndDelim_decomp hF
    refine ⟨(afterOpen text).take pos, nl1, nl2, raw, h1, h2, hdec, ?_⟩
    rw [hF] at hred
    rw [hred, ← htrim]

/-- The antecedent of the claim, read line-wise: some line after the first,
under the `str::lines` view of the text following the opening delimiter,
consists solely of `---` (either line-ending convention). -/
def claimHasCloseLine (s : List Char) : Bool :=
  (((s.splitOn lf).map stripCr).drop 1).any (fun seg => seg == dashes3)

/-- C2 counterexample.  The input `"---\na: 1\n---"` ends in a line
consisting solely of `---` (so the line-wise antecedent of the claim
holds, and the claimed frontmatter block `a: 1` is non-empty and
parseable), yet because that line is not followed by a line break, parse
takes the fallback: the whole input becomes the content and the frontmatter
stays empty. -/
theorem c2_counterexample :
    claimHasCloseLine (afterOpen (cs "---\na: 1\n---")) = true ∧
    Document.parse demoCodec (cs "---\na: 1\n---") =
      .ok (Document.withContent demoCodec (cs "---\na: 1\n---")) ∧
    demoParseFm (cs "a: 1") = some [("a", "1")] ∧
    ([("a", "1")] : demoFm) ≠ [] := by
  refine ⟨by decide, by rfl, by rfl, by decide⟩

/-- C2 witness. -/
theorem c2_closing_witness :
    (Document.parse demoCodec (cs "---\nt: v\n---\nbody") =
        .ok (Document.withContent demoCodec (cs "---\nt: v\n---\nbody")) ↔
      ¬ CloseLineExists (afterOpen (cs "---\nt: v\n---\nbody"))) ∧
    (CloseLineExists (afterOpen (cs "---\nt: v\n---\nbody")) →
      ∃ fm nl1 nl2 raw, nl1 ∈ nlSet ∧ nl2 ∈ nlSet ∧
        afterOpen (cs "---\nt: v\n---\nbody") =
          fm ++ nl1 ++ dashes3 ++ nl2 ++ raw ∧
        Document.parse demoCodec (cs "---\nt: v\n---\nbody") =
          fmStep demoCodec fm (trimStart raw)) :=
  c2_closing_amended demoCodec (cs "---\nt: v\n---\nbody") (by decide)
    (by decide)

/-- The text `raw` is everything after a closing delimiter line of `text`:
the part before it ends with a line feed, and the `---` line is terminated
by either line-break convention. -/
def SplitAtClose (text raw : List Char) : Prop :=
  ∃ u nl2, nl2 ∈ nlSet ∧ text = u ++ dashes3 ++ nl2 ++ raw ∧
    u.getLast? = some lf

theorem getLast_append_of_ne_nil {l1 l2 : List Char} (h : l2 ≠ []) :
    (l1 ++ l2).getLast? = l2.getLast? := by
  rw [List.getLast?_append]
  cases hl : l2.getLast? with
  | none => exact absurd (List.getLast?_eq_none_iff.mp hl) h
  | some a => rfl

theorem begins_decomp {p l : List Char} (h : begins p l = true) :
    l = p ++ l.drop p.length := by
  obtain ⟨z, hz⟩ := begins_iff_eq_append.mp h
  rw [hz, List.drop_left]

/-- C3 amended.  For every text that begins with the opening delimiter and
parses successfully, either no closing delimiter line was found (the parse
fell back to the whole text), or the content is everything after a closing
delimiter line with its *entire leading whitespace* stripped once — not
only leading blank lines, but also leading spaces and tabs on the first
content line (`trim_start`); nothing else is removed, so the content is a
suffix of the text after the delimiter. -/
theorem c3_content_amended {α : Type} (C : YamlCodec α) (text : List Char)
    (d : Document α) (hopen : startsOpen text = true)
    (hp : Document.parse C text = .ok d) :
    d = Document.withContent C text ∨
    ∃ raw, SplitAtClose text raw ∧ d.content = trimStart raw ∧
      d.content <:+ raw := by
  have hopen' := hopen
  unfold startsOpen at hopen'
  have htext : text = (if begins openCRLF text then openCRLF else openLF) ++
      afterOpen text := by
    unfold afterOpen
    cases hc : begins openCRLF text with
    | true =>
      simp only [if_pos rfl]
      have := begins_decomp hc
      conv_lhs => rw [this]
      simp [openCRLF, cs]
    | false =>
      have hlf : begins openLF text = true := by
        cases hl : begins openLF text with
        | true => rfl
        | false => rw [hl, hc] at hopen'; cases hopen'
      simp only [Bool.false_eq_true, if_false]
      have := begins_decomp hlf
      conv_lhs => rw [this]
      simp [openLF, cs]
  have hopenLast : (if begins openCRLF text then openCRLF
      else openLF).getLast? = some lf := by
    cases hc : begins openCRLF text
    · simp [openLF, cs, lf]
    · simp [openCRLF, cs, lf]
  cases himm : immediateClose (afterOpen text) with
  | true =>
    right
    unfold immediateClose at himm
    have hsplit : ∃ nl2, nl2 ∈ nlSet ∧
        afterOpen text = dashes3 ++ nl2 ++
          (afterOpen text).drop
            (if begins openCRLF (afterOpen text) then 5 else 4) := by
      cases hc : begins openCRLF (afterOpen text) with
      | true =>
        refine ⟨[cr, lf], by simp [nlSet], ?_⟩
        have := begins_decomp hc
        conv_lhs => rw [this]
        simp [openCRLF, dashes3, cs, cr, lf]
      | false =>
        have hlf : begins openLF (afterOpen text) = true := by
          cases hl : begins openLF (afterOpen text) with
          | true => rfl
          | false => rw [hl, hc] at himm; cases himm
        refine ⟨[lf], by simp [nlSet], ?_⟩
        have := begins_decomp hlf
        conv_lhs => rw [this]
        simp [openLF, dashes3, cs, lf, hc]
    obtain ⟨nl2, hnl2, hsp⟩ := hsplit
    have hcontent : d.content = trimStart ((afterOpen text).drop
        (if begins openCRLF (afterOpen text) then 5 else 4)) := by
      unfold Document.parse at hp
      rw [hopen'] at hp
      simp only [Bool.not_true, Bool.false_eq_true, if_false] at hp
      rw [show (if begins openCRLF text then text.drop 5 else text.drop 4) =
          afterOpen text from rfl] at hp
      rw [if_pos himm] at hp
      exact fmStep_ok_content hp
    refine ⟨(afterOpen text).drop
        (if begins openCRLF (afterOpen text) then 5 else 4),
      ⟨(if begins openCRLF text then openCRLF else openLF), nl2, hnl2,
        ?_, hopenLast⟩, hcontent, ?_⟩
    · conv_lhs => rw [htext, hsp]
      simp [List.append_assoc]
    · rw [hcontent]
      exact List.dropWhile_suffix _
  | false =>
    have hred := parse_open_reduce C hopen himm
    cases hF : findEndDelim (afterOpen text) with
    | none =>
      left
      rw [hF] at hred
      rw [hred] at hp
      exact (Except.ok.inj hp).symm
    | some pos =>
      right
      rw [hF] at hred
      rw [hred] at hp
      obtain ⟨nl1, nl2, raw, h1, h2, hdec, htrim⟩ := findEndDelim_decomp hF
      have hcontent : d.content = trimStart raw := by
        rw [← htrim]
        exact fmStep_ok_content hp
      refine ⟨raw,
        ⟨(if begins openCRLF text then openCRLF else openLF) ++
          (afterOpen text).take pos ++ nl1, nl2, h2, ?_, ?_⟩,
        hcontent, ?_⟩
      · conv_lhs => rw [htext]
        conv_lhs => rw [hdec]
        simp [List.append_assoc]
      · rw [getLast_append_of_ne_nil]
        · simp only [nlSet, List.mem_cons, List.not_mem_nil, or_false] at h1
          rcases h1 with rfl | rfl
          · rfl
          · rfl
        · simp only [nlSet, List.mem_cons, List.not_mem_nil, or_false] at h1
          rcases h1 with rfl | rfl
          · simp
          · simp
      · rw [hcontent]
        exact List.dropWhile_suffix _

/-- C3 counterexample.  `"---\n---\n  x"` has an (empty) frontmatter block;
the text after the closing delimiter is `"  x"`, which contains no line
feed at all — hence no leading blank lines to trim — yet parse returns
content `"x"`: the two leading spaces were removed as well, contradicting
the claim that no characters other than leading blank lines are removed. -/
theorem c3_counterexample :
    Document.parse demoCodec (cs "---\n---\n  x") = .ok ⟨[], cs "x"⟩ ∧
    SplitAtClose (cs "---\n---\n  x") (cs "  x") ∧
    lf ∉ cs "  x" ∧
    cs "x" ≠ cs "  x" := by
  refine ⟨by rfl, ⟨cs "---\n", [lf], by simp [nlSet], by decide, by decide⟩,
    by decide, by decide⟩

/-- C3 witness. -/
theorem c3_content_witness :
    (⟨[], cs "x"⟩ : Document demoFm) =
      Document.withContent demoCodec (cs "---\n---\n  x") ∨
    ∃ raw, SplitAtClose (cs "---\n---\n  x") raw ∧
      (⟨[], cs "x"⟩ : Document demoFm).content = trimStart raw ∧
      (⟨[], cs "x"⟩ : Document demoFm).content <:+ raw :=
  c3_content_amended demoCodec (cs "---\n---\n  x") ⟨[], cs "x"⟩
    (by decide) (by rfl)

theorem begins_openCRLF_after_openLF (z : List Char) :
    begins openCRLF (openLF ++ z) = false := by
  have h : (('\r' : Char) == '\n') = false := by decide
  simp [openLF, openCRLF, cs, begins, h]

/-- Conditions on the YAML layer under which a serialized non-empty
frontmatter map reparses to itself: the rendering ends with a line break,
introduces no delimiter-shaped line (neither at its start nor internally),
does not trim away to nothing, and is parsed back to the same map by the
YAML parser. `serde_yaml` guarantees all of these for maps it emits. -/
def SerRoundtrips {α : Type} (C : YamlCodec α) (m : α) : Prop :=
  (C.serFm m).getLast? = some lf ∧
  begins openLF (C.serFm m ++ closeTail) = false ∧
  begins openCRLF (C.serFm m ++ closeTail) = false ∧
  (∀ j < (C.serFm m).length - 1,
    begins pat1 ((C.serFm m ++ closeTail).drop j) = false) ∧
  (rustTrim (C.serFm m).dropLast).isEmpty = false ∧
  C.parseFm (C.serFm m).dropLast = some m

/-- C1 amended.  Stable round trip, with the two provisos the
counterexample forces: (1) for a parsed document with empty frontmatter,
re-parsing the serialization reproduces the document provided the content
does not itself begin with an opening delimiter (or is the whole original
text, as in the no-delimiter and fallback cases); (2) for any document with
non-empty frontmatter whose content carries no leading whitespace — every
content produced by parse is of this form — and whose frontmatter
round-trips through the YAML layer (`SerRoundtrips`), parse of the
serialization returns the document itself, value-equal frontmatter and
content included. -/
theorem c1_roundtrip_amended {α : Type} (C : YamlCodec α) :
    (∀ (text : List Char) (d : Document α),
      Document.parse C text = .ok d → C.isEmptyFm d.frontmatter = true →
      (d.content = text ∨
        (begins openLF d.content = false ∧
          begins openCRLF d.content = false)) →
      Document.parse C (Document.toStr C d) = .ok d) ∧
    (∀ d : Document α, C.isEmptyFm d.frontmatter = false →
      SerRoundtrips C d.frontmatter → trimStart d.content = d.content →
      Document.parse C (Document.toStr C d) = .ok d) := by
  constructor
  · intro text d hp hemp hdisj
    have hfm : d.frontmatter = C.empty := C.isEmptyFm_empty _ hemp
    have hts : Document.toStr C d = d.content := by
      unfold Document.toStr
      rw [if_pos hemp]
    rw [hts]
    rcases hdisj with hct | ⟨h1, h2⟩
    · rw [hct]
      exact hp
    · cases d with
      | mk fm ct =>
        simp only at hfm h1 h2
        subst hfm
        unfold Document.parse
        rw [h1, h2]
        simp [Document.withContent]
  · intro d hne hser htrim
    obtain ⟨h1, h2, h3, h4, h5, h6⟩ := hser
    set Y := C.serFm d.frontmatter with hYdef
    have hYne : Y ≠ [] := by
      intro h0
      rw [h0] at h1
      simp at h1
    have hY1 : 1 ≤ Y.length := by
      cases hYl : Y with
      | nil => exact absurd hYl hYne
      | cons a t => simp [hYl]
    have hYeq : Y.dropLast ++ [lf] = Y := by
      conv_rhs => rw [← List.dropLast_append_getLast hYne]
      have hg := List.getLast?_eq_getLast Y hYne
      rw [hg] at h1
      rw [Option.some.inj h1]
    have hoLF : openLF.length = 4 := rfl
    have hoCRLF : openCRLF.length = 5 := rfl
    have hp1len : pat1.length = 5 := rfl
    have hts : Document.toStr C d =
        openLF ++ (Y ++ (closeTail ++ d.content)) := by
      unfold Document.toStr
      rw [if_neg (by simp [hne]), ← hYdef]
      simp [closeTail, List.append_assoc]
    rw [hts]
    have hAfter : afterOpen (openLF ++ (Y ++ (closeTail ++ d.content))) =
        Y ++ (closeTail ++ d.content) := by
      unfold afterOpen
      rw [begins_openCRLF_after_openLF]
      simp only [Bool.false_eq_true, if_false]
      rw [show (4 : Nat) = openLF.length from rfl, List.drop_left]
    have hSO : startsOpen (openLF ++ (Y ++ (closeTail ++ d.content))) =
        true := by
      unfold startsOpen
      rw [begins_append]
      rfl
    have hassoc : Y ++ (closeTail ++ d.content) =
        (Y ++ closeTail) ++ d.content :=
      (List.append_assoc Y closeTail d.content).symm
    have hYCl : (Y ++ closeTail).length = Y.length + 5 := by
      simp [closeTail, cs]
    have himm : immediateClose (Y ++ (closeTail ++ d.content)) = false := by
      unfold immediateClose
      rw [hassoc]
      rw [begins_append_of_le (p := openLF) (l := Y ++ closeTail) d.content
          (by rw [hoLF, hYCl]; omega),
        begins_append_of_le (p := openCRLF) (l := Y ++ closeTail) d.content
          (by rw [hoCRLF, hYCl]; omega)]
      rw [h2, h3]
      rfl
    have hOcc : firstOcc pat1 (Y ++ (closeTail ++ d.content)) =
        some (Y.length - 1) := by
      apply firstOcc_eq_some_of
      · have hsplit : Y ++ (closeTail ++ d.content) =
            Y.dropLast ++ (pat1 ++ (lf :: d.content)) := by
          conv_lhs => rw [← hYeq]
          simp [pat1, closeTail, cs, lf, List.append_assoc]
        rw [hsplit]
        rw [show Y.length - 1 = Y.dropLast.length from
          (List.length_dropLast Y).symm, List.drop_left]
        exact begins_append _ _
      · intro j hj
        rw [hassoc, List.drop_append_eq_append_drop,
          show j - (Y ++ closeTail).length = 0 from by rw [hYCl]; omega,
          List.drop_zero]
        rw [begins_append_of_le (p := pat1) (l := (Y ++ closeTail).drop j)
          d.content (by
            rw [hp1len, List.length_drop, hYCl]
            omega)]
        exact h4 j hj
    have hF : findEndDelim (Y ++ (closeTail ++ d.content)) =
        some (Y.length - 1) := by
      unfold findEndDelim
      rw [hOcc]
    have hred := parse_open_reduce C hSO (by rw [hAfter]; exact himm)
    rw [hAfter, hF] at hred
    rw [hred]
    have htake : (Y ++ (closeTail ++ d.content)).take (Y.length - 1) =
        Y.dropLast := by
      calc (Y ++ (closeTail ++ d.content)).take (Y.length - 1)
          = ((Y.dropLast ++ [lf]) ++ (closeTail ++ d.content)).take
              Y.dropLast.length := by
            rw [hYeq, List.length_dropLast]
        _ = Y.dropLast := by
            rw [List.append_assoc, List.take_left]
    have hdrop : (Y ++ (closeTail ++ d.content)).drop (Y.length - 1 + 5) =
        lf :: d.content := by
      rw [hassoc, List.drop_append_eq_append_drop]
      rw [show Y.length - 1 + 5 - (Y ++ closeTail).length = 0 from by
        rw [hYCl]; omega, List.drop_zero]
      rw [show (Y ++ closeTail).drop (Y.length - 1 + 5) = [lf] from by
        rw [List.drop_append_eq_append_drop]
        rw [List.drop_eq_nil_of_le (by omega : Y.length ≤ Y.length - 1 + 5)]
        rw [show Y.length - 1 + 5 - Y.length = 4 from by omega]
        simp [closeTail, cs, lf]]
      rfl
    show fmStep C ((Y ++ (closeTail ++ d.content)).take (Y.length - 1))
        (trimStart ((Y ++ (closeTail ++ d.content)).drop (Y.length - 1 + 5)))
      = Except.ok d
    rw [htake, hdrop, trimStart_cons_ws (by decide), htrim]
    unfold fmStep
    rw [if_neg (by simp [h5])]
    rw [h6]

/-- C1 counterexample.  For the input
`"---\n---\n---\na: 1\n---\nrest"`, parse yields empty frontmatter with
content `"---\na: 1\n---\nrest"`; serializing that document emits the bare
content, which re-parses as a document with frontmatter `{a: 1}` and
content `"rest"` — so `parse(serialize(parse(text)))` is not value-equal to
`parse(text)`: the claimed stable round trip fails. -/
theorem c1_counterexample :
    Document.parse demoCodec (cs "---\n---\n---\na: 1\n---\nrest") =
      .ok ⟨[], cs "---\na: 1\n---\nrest"⟩ ∧
    Document.toStr demoCodec ⟨[], cs "---\na: 1\n---\nrest"⟩ =
      cs "---\na: 1\n---\nrest" ∧
    Document.parse demoCodec (cs "---\na: 1\n---\nrest") =
      .ok ⟨[("a", "1")], cs "rest"⟩ ∧
    ([("a", "1")] : demoFm) ≠ [] ∧
    cs "rest" ≠ cs "---\na: 1\n---\nrest" := by
  refine ⟨by rfl, by rfl, by rfl, by decide, by decide⟩

/-- C1 witness. -/
theorem c1_roundtrip_witness :
    SerRoundtrips demoCodec [("a", "1")] ∧
    Document.parse demoCodec
        (Document.toStr demoCodec ⟨[("a", "1")], cs "body"⟩) =
      .ok ⟨[("a", "1")], cs "body"⟩ :=
  ⟨by
    refine ⟨by decide, by decide, by decide, by decide, by decide, by rfl⟩,
    (c1_roundtrip_amended demoCodec).2 ⟨[("a", "1")], cs "body"⟩ (by decide)
      ⟨by decide, by decide, by decide, by decide, by decide, by rfl⟩
      (by decide)⟩
